import Mathlib

/-!
Shallow embedding of the GIUNet pooling/unpooling core (`methods.py`, `models.py`).

Conventions of the embedding:
* torch float tensors are idealised as exact rationals (`ℚ`); 1-D tensors become
  `List ℚ`, feature matrices become `List (List ℚ)` (one inner list per row), and
  square adjacency-like matrices become total functions `ℕ → ℕ → ℚ` whose active
  block is `[0,n) × [0,n)`, the dimension `n` being passed explicitly to every
  operation that contracts over it (as in the dense torch tensors of the source).
* `edge_index`, a 2×E integer tensor in the source, becomes a `List (ℕ × ℕ)` of
  columns (one pair per edge).
* fallible torch operations (out-of-range indexing, `torch.topk` with `k` larger
  than the input, shape-mismatched assignment) are modelled with `Option`:
  `none` is a raised runtime error.
* the IEEE-754 behaviour of `normalized_laplacian` on zero-degree nodes matters
  for the spec, so that function is embedded over a small extended value type
  `EF` (finite rational, +inf, -inf, NaN) with the IEEE rules for the
  operations the function performs.
-/

/-! ## Dense rational matrices (`ℕ → ℕ → ℚ` with explicit dimension) -/

/-- Square rational matrix, indexed by `ℕ`; the live block is `[0,n) × [0,n)`. -/
abbrev QMat := ℕ → ℕ → ℚ

/-- `torch.matmul` of two `n × n` dense matrices. -/
def matmul (n : ℕ) (A B : QMat) : QMat :=
  fun i j => ∑ t ∈ Finset.range n, A i t * B t j

/-- `g.sum(1)`: the row sums of an `n × n` matrix. -/
def rowSum (n : ℕ) (A : QMat) (i : ℕ) : ℚ :=
  ∑ t ∈ Finset.range n, A i t

/-- `g.bool().float()`: threshold every entry to `1` if nonzero, `0` otherwise. -/
def boolFloat (A : QMat) : QMat :=
  fun i j => if A i j ≠ 0 then 1 else 0

/-- `methods.py::adjacency_matrix` / `models.py::adjacency_matrix`: a zero
matrix with `adj_matrix[edge_index[0], edge_index[1]] = 1`, i.e. entry `(i,j)`
is `1` exactly when `(i,j)` is a column of `edge_index`.  The `num_nodes × num_nodes`
shape of the torch tensor is carried by the explicit dimension arguments of the
operations applied to the result. -/
def adjacency_matrix (edge_index : List (ℕ × ℕ)) : QMat :=
  fun i j => if (i, j) ∈ edge_index then 1 else 0

/-- The `1e-8` guard of `norm_g`, idealised as the exact rational. -/
def eps : ℚ := 1 / 10 ^ 8

/-- `methods.py::norm_g` / `models.py::norm_g`:
`g / (g.sum(1, keepdim=True) + 1e-8)` on an `n × n` matrix. -/
def norm_g (n : ℕ) (g : QMat) : QMat :=
  fun i j => g i j / (rowSum n g i + eps)

/-- `un_g[idx, :][:, idx]`: restrict rows and columns to the positions listed in
`idx` (the resulting matrix is `idx.length × idx.length`). -/
def restrictIdx (idx : List ℕ) (A : QMat) : QMat :=
  fun a b => A (idx.getD a 0) (idx.getD b 0)

/-! ## Top-k selection -/

/-- One insertion step of a stable descending sort of node indices by score
(`s.getD · 0` is the score of an index). -/
def insertByScore (s : List ℚ) (i : ℕ) : List ℕ → List ℕ
  | [] => [i]
  | j :: rest =>
    if s.getD i 0 ≤ s.getD j 0 then j :: insertByScore s i rest
    else i :: j :: rest

/-- All node indices `[0, s.length)` sorted by descending score.  `torch.topk`
returns the `k` largest entries in sorted order; its tie-break among equal
scores is implementation-defined, and this embedding fixes the stable
ascending-index tie-break.  No claim below depends on the tie-break. -/
def argsortDesc (s : List ℚ) : List ℕ :=
  (List.range s.length).foldr (insertByScore s) []

/-- The index component of `torch.topk(scores, k)`. -/
def topkIdx (s : List ℚ) (k : ℕ) : List ℕ :=
  (argsortDesc s).take k

/-- `max(2, int(ratio * num_nodes))` from `top_k_pool`.  Python `int()`
truncates toward zero; on the exact rational `ratio * num_nodes` this is the
truncating division of the unreduced numerator `ratio.num * num_nodes` by
`ratio.den` (kept in integer arithmetic so that it evaluates by kernel
reduction). -/
def kOf (ratio : ℚ) (num_nodes : ℕ) : ℕ :=
  max 2 (Int.tdiv (ratio.num * num_nodes) ratio.den).toNat

/-- The coarsened-adjacency computation inside `top_k_pool` (lines 78–81 of
`methods.py`): dense adjacency of the full graph, thresholded triple product
`(g.bool @ (g.bool @ g.bool)).bool`, restriction of rows and columns to `idx`,
then `norm_g` over the `idx.length × idx.length` block. -/
def poolCoarsen (edge_index : List (ℕ × ℕ)) (n : ℕ) (idx : List ℕ) : QMat :=
  let g := adjacency_matrix edge_index
  let gb := boolFloat g
  let un_g := boolFloat (matmul n gb (matmul n gb gb))
  norm_g idx.length (restrictIdx idx un_g)

/-- `methods.py::top_k_pool` / `models.py::top_k_pool`.
`none` models the torch runtime errors: `torch.topk` with `k` larger than the
score vector, and `h[idx]` with an out-of-range index.  On success it returns
`(coarsened adjacency, score-scaled selected rows, selection index)`. -/
def top_k_pool (scores : List ℚ) (edge_index : List (ℕ × ℕ)) (h : List (List ℚ))
    (ratio : ℚ) : Option (QMat × List (List ℚ) × List ℕ) :=
  let num_nodes := h.length
  let k := kOf ratio num_nodes
  if k ≤ scores.length ∧ ∀ i ∈ topkIdx scores k, i < h.length then
    let idx := topkIdx scores k
    let new_h := idx.map (fun i => (h.getD i []).map (fun x => scores.getD i 0 * x))
    some (poolCoarsen edge_index num_nodes idx, new_h, idx)
  else none

/-- Modelled from the spec, claim C5's reference computation: "build the dense
adjacency A of the full graph, form the boolean (thresholded) matrix of
`A_bool @ A_bool @ A_bool`, restrict its rows and columns to the selected
indices, then divide each row by its sum plus a small epsilon". -/
def specCoarsenedAdjacency (edge_index : List (ℕ × ℕ)) (n : ℕ) (idx : List ℕ) : QMat :=
  let A := adjacency_matrix edge_index
  let Abool := boolFloat A
  let T := boolFloat (matmul n (matmul n Abool Abool) Abool)
  let R := restrictIdx idx T
  fun a b => R a b / (rowSum idx.length R a + eps)

/-- Modelled from the spec, the `round` in "k = max(2, round(r * N))": half-up
rounding `⌊r·N + 1/2⌋`, computed on the numerator and denominator of `r` so
that it evaluates by kernel reduction.  `roundRatMulNat_eq_round` below
identifies it with Mathlib's `round (r * N)`. -/
def roundRatMulNat (r : ℚ) (n : ℕ) : ℤ :=
  Int.fdiv (2 * (r.num * n) + r.den) ((2 * r.den : ℕ) : ℤ)

/-! ## Edge selection after pooling (`CentPool.forward` / `SpectPool.forward`) -/

/-- Line 31 of `models.py` (`CentPool.forward`, identical in
`SpectPool.forward`): `edge_index = edge_index[:, idx]`, which selects the
*columns* of the 2×E tensor `edge_index` at the positions listed in `idx`.
`none` models the index error raised when some entry of `idx` is not below the
number of edges. -/
def CentPool.edge_select (edge_index : List (ℕ × ℕ)) (idx : List ℕ) :
    Option (List (ℕ × ℕ)) :=
  if ∀ i ∈ idx, i < edge_index.length then
    some (idx.map (fun i => edge_index.getD i (0, 0)))
  else none

/-- Modelled from the spec, claim C2: "the edge list restricted to edges whose
endpoints are both in SelectionIndex". -/
def spec_edge_restrict (edge_index : List (ℕ × ℕ)) (idx : List ℕ) : List (ℕ × ℕ) :=
  edge_index.filter (fun e => decide (e.1 ∈ idx) && decide (e.2 ∈ idx))

/-! ## Unpooling -/

/-- `h.new_zeros([n, m])`: an `n × m` zero matrix as a list of rows. -/
def zerosM (n m : ℕ) : List (List ℚ) :=
  List.replicate n (List.replicate m 0)

/-- `h.shape[1]`: the width of a feature matrix given as a list of rows. -/
def rowWidth (h : List (List ℚ)) : ℕ :=
  (h.headD []).length

/-- `new_h[idx] = h`: write row `h[j]` at position `idx[j]` of an `n × m` zero
matrix, in order (later writes win). -/
def scatterRows (n m : ℕ) (idx : List ℕ) (h : List (List ℚ)) : List (List ℚ) :=
  (idx.zip h).foldl (fun acc p => acc.set p.1 p.2) (zerosM n m)

/-- `models.py::SimpleUnpool.forward`: zero-init an `g.shape[0] × h.shape[1]`
matrix and scatter the rows of `h` back at the positions in `idx`.  `none`
models the torch errors of `new_h[idx] = h`: an entry of `idx` at or above
`g.shape[0]`, or `idx` and `h` of different lengths. -/
def SimpleUnpool.forward (g h : List (List ℚ)) (idx : List ℕ) :
    Option (List (List ℚ)) :=
  if idx.length = h.length ∧ ∀ i ∈ idx, i < g.length then
    some (scatterRows g.length (rowWidth h) idx h)
  else none

/-- `models.py::Unpool.forward`: the same scatter, followed by
`idx_prime = [index for index in idx if index not in range(g.shape[0])]` and a
synthesis loop over `idx_prime`.  The filter keeps the entries of `idx` that
are *not* valid row indices, so whenever the scatter above it succeeded,
`idx_prime` is empty and the loop body never runs.  If the loop did run for
some `i`, `new_h[i] = weighted_mean * h` would both index `new_h` out of range
(`i ≥ g.shape[0]`) and assign a `k × F` tensor to a single row; executing the
body is therefore modelled as a raised error (`none`). -/
def Unpool.forward (g h : List (List ℚ)) (idx : List ℕ) :
    Option (List (List ℚ)) :=
  if idx.length = h.length ∧ ∀ i ∈ idx, i < g.length then
    let new_h := scatterRows g.length (rowWidth h) idx h
    let idx_prime := idx.filter (fun i => decide (g.length ≤ i))
    if idx_prime.isEmpty then some new_h else none
  else none

/-! ## IEEE-style extended values for `normalized_laplacian` -/

/-- A float value as seen by `normalized_laplacian`: a finite value (idealised
as an exact rational), `+inf`, `-inf`, or `NaN`.  There is a single zero. -/
inductive EF : Type
  | fin : ℚ → EF
  | pinf : EF
  | ninf : EF
  | nan : EF
deriving DecidableEq

/-- IEEE addition on extended values. -/
def EF.add : EF → EF → EF
  | .nan, _ => .nan
  | .fin _, .nan => .nan
  | .pinf, .nan => .nan
  | .ninf, .nan => .nan
  | .fin a, .fin b => .fin (a + b)
  | .fin _, .pinf => .pinf
  | .fin _, .ninf => .ninf
  | .pinf, .fin _ => .pinf
  | .ninf, .fin _ => .ninf
  | .pinf, .pinf => .pinf
  | .ninf, .ninf => .ninf
  | .pinf, .ninf => .nan
  | .ninf, .pinf => .nan

/-- IEEE multiplication on extended values (in particular `0 * ±inf = NaN`). -/
def EF.mul : EF → EF → EF
  | .nan, _ => .nan
  | .fin _, .nan => .nan
  | .pinf, .nan => .nan
  | .ninf, .nan => .nan
  | .fin a, .fin b => .fin (a * b)
  | .fin a, .pinf => if a = 0 then .nan else if 0 < a then .pinf else .ninf
  | .pinf, .fin a => if a = 0 then .nan else if 0 < a then .pinf else .ninf
  | .fin a, .ninf => if a = 0 then .nan else if 0 < a then .ninf else .pinf
  | .ninf, .fin a => if a = 0 then .nan else if 0 < a then .ninf else .pinf
  | .pinf, .pinf => .pinf
  | .pinf, .ninf => .ninf
  | .ninf, .pinf => .ninf
  | .ninf, .ninf => .pinf

/-- IEEE negation on extended values. -/
def EF.neg : EF → EF
  | .fin a => .fin (-a)
  | .pinf => .ninf
  | .ninf => .pinf
  | .nan => .nan

/-- IEEE subtraction, as addition of the negation. -/
def EF.sub (a b : EF) : EF := EF.add a (EF.neg b)

/-- IEEE division on extended values.  With the single zero of this model,
`x / 0` for `x > 0` is `+inf` (the behaviour of `1 / torch.sqrt(0.)`). -/
def EF.div : EF → EF → EF
  | .nan, _ => .nan
  | .fin _, .nan => .nan
  | .pinf, .nan => .nan
  | .ninf, .nan => .nan
  | .fin a, .fin b =>
    if b = 0 then (if a = 0 then .nan else if 0 < a then .pinf else .ninf)
    else .fin (a / b)
  | .fin _, .pinf => .fin 0
  | .fin _, .ninf => .fin 0
  | .pinf, .fin b => if 0 ≤ b then .pinf else .ninf
  | .ninf, .fin b => if 0 ≤ b then .ninf else .pinf
  | .pinf, .pinf => .nan
  | .pinf, .ninf => .nan
  | .ninf, .pinf => .nan
  | .ninf, .ninf => .nan

/-- IEEE square root.  On finite nonnegative values the true square root is
irrational in general; `Rat.sqrt` stands in for the float approximation, and
every fact proved below depends only on the exact case `sqrt 0 = 0`. -/
def EF.sqrt : EF → EF
  | .nan => .nan
  | .pinf => .pinf
  | .ninf => .nan
  | .fin q => if q < 0 then .nan else .fin (Rat.sqrt q)

/-- `torch.sum` over the first `n` positions of an extended-value vector. -/
def EF.sumTo (n : ℕ) (f : ℕ → EF) : EF :=
  (List.range n).foldl (fun a t => EF.add a (f t)) (.fin 0)

/-- `torch.mm` of two `n × n` extended-value matrices. -/
def EF.mm (n : ℕ) (A B : ℕ → ℕ → EF) : ℕ → ℕ → EF :=
  fun i j => EF.sumTo n (fun t => EF.mul (A i t) (B t j))

/-- `d = torch.sum(adjacency_matrix, dim=1)` in `normalized_laplacian`. -/
def nl_d (n : ℕ) (A : ℕ → ℕ → EF) (i : ℕ) : EF :=
  EF.sumTo n (fun j => A i j)

/-- `Dinv_sqrt = torch.diag(1 / torch.sqrt(d))` in `normalized_laplacian`:
diagonal entries `1 / sqrt(d i)`, zero elsewhere. -/
def nl_dinvSqrt (n : ℕ) (A : ℕ → ℕ → EF) : ℕ → ℕ → EF :=
  fun i j => if i = j then EF.div (.fin 1) (EF.sqrt (nl_d n A i)) else .fin 0

/-- `Ln = torch.eye(num_nodes) - Dinv_sqrt @ A @ Dinv_sqrt` in
`normalized_laplacian` (the source multiplies as `mm (mm Dinv_sqrt A) Dinv_sqrt`). -/
def nl_Ln (n : ℕ) (A : ℕ → ℕ → EF) : ℕ → ℕ → EF :=
  fun i j =>
    EF.sub (if i = j then .fin 1 else .fin 0)
      (EF.mm n (EF.mm n (nl_dinvSqrt n A) A) (nl_dinvSqrt n A) i j)

/-- `methods.py::normalized_laplacian` / `models.py::normalized_laplacian`
over extended values:
`d = A.sum(1)`, `Dinv_sqrt = diag(1 / sqrt(d))`,
`Ln = I - Dinv_sqrt @ A @ Dinv_sqrt`, then `Ln = 0.5 * (Ln + Ln.T)`.
The function raises nothing; degenerate degrees flow through the arithmetic. -/
def normalized_laplacian (n : ℕ) (A : ℕ → ℕ → EF) : ℕ → ℕ → EF :=
  fun i j => EF.mul (.fin (1 / 2)) (EF.add (nl_Ln n A i j) (nl_Ln n A j i))

/-! ## Centrality assembly (`all_centralities`)

The individual centrality metrics are deterministic NetworkX library calls made
in worker processes; the embedding abstracts a finished worker pool as the list
of its results in queue-arrival order and embeds the assembly code that turns
that list into the feature-matrix columns. -/

/-- Reading `centralities_dict[...]` after the drain loop of
`methods.py::all_centralities`: the queue items are keyed by worker index, the
dictionary keeps the last write for a key, and a missing key raises `KeyError`
(modelled as `none`). -/
def lookupLast (j : ℕ) (results : List (ℕ × List ℚ)) : Option (List ℚ) :=
  ((results.filter (fun p => p.1 == j)).getLast?).map Prod.snd

/-- `methods.py::all_centralities` (lines 60–69), given the drained queue
contents `arrivals` in arrival order: build the dictionary keyed by worker
index and emit one column per method in the fixed `centrality_methods` order
`0, …, k-1`. -/
def all_centralities_methods (k : ℕ) (arrivals : List (ℕ × List ℚ)) :
    Option (List (List ℚ)) :=
  (List.range k).mapM (fun j => lookupLast j arrivals)

/-- `models.py::all_centralities` (lines 107–111), given the drained queue
contents in arrival order: `centralities = []` then `append` per queue item,
so the stacked columns are in queue-arrival order, not keyed by method. -/
def all_centralities_models (arrivals : List (List ℚ)) : List (List ℚ) :=
  arrivals.foldl (fun acc c => acc ++ [c]) []

/-! ## Helper lemmas: top-k selection -/

lemma insertByScore_perm (s : List ℚ) (i : ℕ) (l : List ℕ) :
    (insertByScore s i l).Perm (i :: l) := by
  induction l with
  | nil => simp [insertByScore]
  | cons j rest ih =>
    simp only [insertByScore]
    split
    · exact (ih.cons j).trans (List.Perm.swap i j rest)
    · exact List.Perm.refl _

lemma foldr_insertByScore_perm (s : List ℚ) (l : List ℕ) :
    (l.foldr (insertByScore s) []).Perm l := by
  induction l with
  | nil => exact List.Perm.refl _
  | cons a t ih =>
    simp only [List.foldr]
    exact (insertByScore_perm s a _).trans (ih.cons a)

lemma argsortDesc_perm (s : List ℚ) : (argsortDesc s).Perm (List.range s.length) :=
  foldr_insertByScore_perm s _

lemma topkIdx_length (s : List ℚ) (k : ℕ) (hk : k ≤ s.length) :
    (topkIdx s k).length = k := by
  simp only [topkIdx, List.length_take]
  rw [(argsortDesc_perm s).length_eq, List.length_range]
  exact inf_eq_left.mpr hk

lemma topkIdx_nodup (s : List ℚ) (k : ℕ) : (topkIdx s k).Nodup :=
  (List.take_sublist k _).nodup (((argsortDesc_perm s).nodup_iff).mpr (List.nodup_range _))

lemma topkIdx_mem (s : List ℚ) (k i : ℕ) (h : i ∈ topkIdx s k) : i < s.length :=
  List.mem_range.mp (((argsortDesc_perm s).mem_iff).mp ((List.take_sublist k _).subset h))

lemma kOf_le (r : ℚ) (N : ℕ) (h0 : 0 ≤ r) (h1 : r ≤ 1) (hN : 2 ≤ N) : kOf r N ≤ N := by
  have hden : (0 : ℤ) < r.den := by exact_mod_cast r.den_pos
  have hnum : 0 ≤ r.num := Rat.num_nonneg.mpr h0
  have ha : (0 : ℤ) ≤ r.num * N := mul_nonneg hnum (Int.natCast_nonneg N)
  have hnd : r.num ≤ (r.den : ℤ) := by
    have := Rat.le_def.mp h1
    simpa using this
  have hle : r.num * (N : ℤ) ≤ (r.den : ℤ) * N :=
    mul_le_mul_of_nonneg_right hnd (Int.natCast_nonneg N)
  unfold kOf
  apply max_le hN
  rw [Int.toNat_le, Int.tdiv_eq_ediv ha (le_of_lt hden)]
  calc r.num * (N : ℤ) / r.den ≤ (r.den : ℤ) * N / r.den := Int.ediv_le_ediv hden hle
    _ = N := Int.mul_ediv_cancel_left _ (ne_of_gt hden)

lemma roundRatMulNat_eq_round (r : ℚ) (n : ℕ) :
    roundRatMulNat r n = round (r * (n : ℚ)) := by
  have hden0 : ((r.den : ℚ)) ≠ 0 := Nat.cast_ne_zero.mpr r.den_nz
  have key : r * (n : ℚ) + 1 / 2 =
      ((2 * (r.num * (n : ℤ)) + (r.den : ℤ) : ℤ) : ℚ) / (((2 * r.den : ℕ) : ℚ)) := by
    have hr : (r.num : ℚ) / (r.den : ℚ) = r := Rat.num_div_den r
    conv_lhs => rw [← hr]
    field_simp
    ring
  rw [round_eq, key, Rat.floor_intCast_div_natCast, roundRatMulNat,
    Int.fdiv_eq_ediv _ (Int.natCast_nonneg _)]

/-! ## Claim C1 -/

/-- Claim C1 as stated is false: `top_k_pool` computes `k` with Python `int()`
truncation, not rounding.  On 5 nodes with ratio `19/25` (so `r·N = 3.8`) the
call succeeds and returns 3 indices, while `max(2, round(r·N)) = 4`. -/
theorem top_k_pool_round_counterexample :
    (top_k_pool [5, 4, 3, 2, 1] [(0, 1)] [[1], [1], [1], [1], [1]] (mkRat 19 25)).map
        (fun t => t.2.2.length) = some 3 ∧
    (top_k_pool [5, 4, 3, 2, 1] [(0, 1)] [[1], [1], [1], [1], [1]] (mkRat 19 25)).map
        (fun t => t.2.2.length) ≠
      some (max 2 (roundRatMulNat (mkRat 19 25)
        [[(1 : ℚ)], [1], [1], [1], [1]].length).toNat) := by
  constructor
  · decide
  · decide

/-- Claim C1 (amended): for `0 ≤ r ≤ 1` and at least two nodes (so that the
`torch.topk` call is in range), `top_k_pool` returns a SelectionIndex of
exactly `max(2, ⌊r·N⌋)` indices — Python `int()` truncation, not rounding —
all distinct and all in `[0, N)`. -/
theorem top_k_pool_selection_count_nodup_range (scores : List ℚ)
    (edge_index : List (ℕ × ℕ)) (h : List (List ℚ)) (ratio : ℚ)
    (hlen : scores.length = h.length) (hN : 2 ≤ h.length)
    (h0 : 0 ≤ ratio) (h1 : ratio ≤ 1) :
    (top_k_pool scores edge_index h ratio).map (fun t => t.2.2) =
        some (topkIdx scores (kOf ratio h.length)) ∧
    (topkIdx scores (kOf ratio h.length)).length = kOf ratio h.length ∧
    (topkIdx scores (kOf ratio h.length)).Nodup ∧
    ∀ i ∈ topkIdx scores (kOf ratio h.length), i < h.length := by
  have hk : kOf ratio h.length ≤ scores.length := by
    rw [hlen]; exact kOf_le ratio h.length h0 h1 hN
  have hmem : ∀ i ∈ topkIdx scores (kOf ratio h.length), i < h.length :=
    fun i hi => hlen ▸ topkIdx_mem scores _ i hi
  refine ⟨?_, topkIdx_length _ _ hk, topkIdx_nodup _ _, hmem⟩
  simp only [top_k_pool]
  rw [if_pos ⟨hk, hmem⟩]
  rfl

/-- Claim C1 witness: the amended claim instantiated on a concrete 5-node
graph with ratio `1/2` (so `k = max(2, ⌊5/2⌋) = 2`). -/
theorem top_k_pool_selection_count_nodup_range_witness :
    ([(5 : ℚ), 4, 3, 2, 1].length = [[(1 : ℚ)], [1], [1], [1], [1]].length) ∧
    (2 ≤ [[(1 : ℚ)], [1], [1], [1], [1]].length) ∧
    (0 ≤ mkRat 1 2) ∧ (mkRat 1 2 ≤ 1) ∧
    ((top_k_pool [5, 4, 3, 2, 1] [(0, 1)] [[1], [1], [1], [1], [1]]
          (mkRat 1 2)).map (fun t => t.2.2) =
        some (topkIdx [5, 4, 3, 2, 1] (kOf (mkRat 1 2) 5)) ∧
      (topkIdx [(5 : ℚ), 4, 3, 2, 1] (kOf (mkRat 1 2) 5)).length = kOf (mkRat 1 2) 5 ∧
      (topkIdx [(5 : ℚ), 4, 3, 2, 1] (kOf (mkRat 1 2) 5)).Nodup ∧
      ∀ i ∈ topkIdx [(5 : ℚ), 4, 3, 2, 1] (kOf (mkRat 1 2) 5), i < 5) :=
  ⟨by decide, by decide, by decide, by decide,
    top_k_pool_selection_count_nodup_range [5, 4, 3, 2, 1] [(0, 1)]
      [[1], [1], [1], [1], [1]] (mkRat 1 2) (by decide) (by decide) (by decide) (by decide)⟩

/-! ## Claim C5 -/

lemma matmul_assoc (n : ℕ) (A B C : QMat) :
    matmul n A (matmul n B C) = matmul n (matmul n A B) C := by
  funext i j
  simp only [matmul, Finset.mul_sum, Finset.sum_mul, mul_assoc]
  exact Finset.sum_comm

/-- Claim C5: on every successful call, the CoarsenedAdjacency returned by
`top_k_pool` equals the spec's reference computation `specCoarsenedAdjacency`
(dense adjacency, thresholded `A_bool @ A_bool @ A_bool`, restriction to the
selected indices, rows divided by their sum plus epsilon); the two sides
differ only in the association of the triple matrix product. -/
theorem top_k_pool_coarsen_refines_spec (scores : List ℚ)
    (edge_index : List (ℕ × ℕ)) (h : List (List ℚ)) (ratio : ℚ)
    (hk : kOf ratio h.length ≤ scores.length)
    (hmem : ∀ i ∈ topkIdx scores (kOf ratio h.length), i < h.length) :
    (top_k_pool scores edge_index h ratio).map (fun t => t.1) =
      some (specCoarsenedAdjacency edge_index h.length
        (topkIdx scores (kOf ratio h.length))) := by
  simp only [top_k_pool]
  rw [if_pos ⟨hk, hmem⟩]
  refine congrArg some ?_
  simp only [poolCoarsen, specCoarsenedAdjacency, matmul_assoc]
  rfl

/-- Claim C5 witness: the refinement instantiated on a concrete 4-node path
graph with ratio `1/2`. -/
theorem top_k_pool_coarsen_refines_spec_witness :
    (kOf (mkRat 1 2) [[(1 : ℚ)], [2], [3], [4]].length ≤ [(4 : ℚ), 3, 2, 1].length) ∧
    (∀ i ∈ topkIdx [(4 : ℚ), 3, 2, 1] (kOf (mkRat 1 2) 4), i < 4) ∧
    (top_k_pool [4, 3, 2, 1] [(0, 1), (1, 2), (2, 3)] [[1], [2], [3], [4]]
        (mkRat 1 2)).map (fun t => t.1) =
      some (specCoarsenedAdjacency [(0, 1), (1, 2), (2, 3)] 4
        (topkIdx [4, 3, 2, 1] (kOf (mkRat 1 2) 4))) :=
  ⟨by decide, by decide,
    top_k_pool_coarsen_refines_spec [4, 3, 2, 1] [(0, 1), (1, 2), (2, 3)]
      [[1], [2], [3], [4]] (mkRat 1 2) (by decide) (by decide)⟩

/-! ## Claim C2 -/

/-- Claim C2 fails on the code: `edge_index[:, idx]` selects edge-index
*columns* at the node positions of `idx` instead of keeping the edges with
both endpoints in the selection.  On the path `0-1-2-3` with selection
`[0, 2]` the code returns the edges `(0,1)` and `(2,3)` (endpoints `1` and `3`
are not selected), while the specified restriction is empty. -/
theorem centpool_edge_select_divergence :
    CentPool.edge_select [(0, 1), (1, 2), (2, 3)] [0, 2] = some [(0, 1), (2, 3)] ∧
    spec_edge_restrict [(0, 1), (1, 2), (2, 3)] [0, 2] = [] ∧
    CentPool.edge_select [(0, 1), (1, 2), (2, 3)] [0, 2] ≠
      some (spec_edge_restrict [(0, 1), (1, 2), (2, 3)] [0, 2]) :=
  ⟨by decide, by decide, by decide⟩

/-! ## Claim C10 -/

/-- Claim C10: when every entry of `idx` is a valid row index of `g`, the
structural `Unpool.forward` returns exactly `SimpleUnpool.forward`'s output:
`idx_prime` (the entries of `idx` outside `range(g.shape[0])`) is empty, so
the synthesis loop never executes. -/
theorem unpool_forward_eq_simple (g h : List (List ℚ)) (idx : List ℕ)
    (hvalid : ∀ i ∈ idx, i < g.length) :
    Unpool.forward g h idx = SimpleUnpool.forward g h idx := by
  simp only [Unpool.forward, SimpleUnpool.forward]
  by_cases hc : idx.length = h.length ∧ ∀ i ∈ idx, i < g.length
  · rw [if_pos hc, if_pos hc]
    have hfilter : idx.filter (fun i => decide (g.length ≤ i)) = [] :=
      List.filter_eq_nil_iff.mpr (fun a ha => by
        simp only [decide_eq_true_eq]
        exact Nat.not_le.mpr (hvalid a ha))
    rw [hfilter]
    rfl
  · rw [if_neg hc, if_neg hc]

/-- Claim C10 witness: the equivalence instantiated on a concrete 2-node input. -/
theorem unpool_forward_eq_simple_witness :
    (∀ i ∈ ([1, 0] : List ℕ), i < ([[(1 : ℚ), 0], [0, 1]] : List (List ℚ)).length) ∧
    Unpool.forward [[1, 0], [0, 1]] [[3], [4]] [1, 0] =
      SimpleUnpool.forward [[1, 0], [0, 1]] [[3], [4]] [1, 0] :=
  ⟨by decide, unpool_forward_eq_simple [[1, 0], [0, 1]] [[3], [4]] [1, 0] (by decide)⟩

/-! ## Claim C3 -/

/-- Claim C3 fails on the code: with `g` of size 3, pooled rows `[[5],[7]]`
and SelectionIndex `[0, 2]`, the dropped index `1` receives the all-zero row,
not a value synthesized from the adjacency — the structural `Unpool.forward`
coincides with the simple scatter because its `idx_prime` filter selects
out-of-range entries of `idx` instead of the dropped indices. -/
theorem unpool_no_structural_synthesis :
    Unpool.forward [[1, 1, 1], [1, 1, 1], [1, 1, 1]] [[5], [7]] [0, 2] =
      some [[5], [0], [7]] ∧
    (1 ∉ ([0, 2] : List ℕ)) ∧
    ([[(5 : ℚ)], [0], [7]].getD 1 []) = List.replicate (rowWidth [[(5 : ℚ)], [7]]) 0 :=
  ⟨by decide, by decide, by decide⟩

/-! ## Claim C4 -/

lemma foldl_set_length (pairs : List (ℕ × List ℚ)) :
    ∀ acc : List (List ℚ),
      (pairs.foldl (fun a p => a.set p.1 p.2) acc).length = acc.length := by
  induction pairs with
  | nil => intro acc; rfl
  | cons p rest ih => intro acc; rw [List.foldl_cons, ih, List.length_set]

lemma foldl_set_getElem_not_mem (pairs : List (ℕ × List ℚ)) :
    ∀ (acc : List (List ℚ)) (i : ℕ), i ∉ pairs.map Prod.fst →
      (pairs.foldl (fun a p => a.set p.1 p.2) acc)[i]? = acc[i]? := by
  induction pairs with
  | nil => intro acc i _; rfl
  | cons p rest ih =>
    intro acc i hi
    simp only [List.map_cons, List.mem_cons, not_or] at hi
    rw [List.foldl_cons, ih _ i hi.2, List.getElem?_set_ne (Ne.symm hi.1)]

lemma foldl_set_getElem_mem (pairs : List (ℕ × List ℚ)) :
    ∀ acc : List (List ℚ), (pairs.map Prod.fst).Nodup →
      ∀ p ∈ pairs, p.1 < acc.length →
        (pairs.foldl (fun a q => a.set q.1 q.2) acc)[p.1]? = some p.2 := by
  induction pairs with
  | nil => intro acc _ p hp; exact absurd hp (List.not_mem_nil p)
  | cons q rest ih =>
    intro acc hnd p hp hlt
    rw [List.foldl_cons]
    rcases List.mem_cons.mp hp with heq | hmem
    · subst heq
      have hq : p.1 ∉ rest.map Prod.fst := (List.nodup_cons.mp (by simpa using hnd)).1
      rw [foldl_set_getElem_not_mem rest _ p.1 hq, List.getElem?_set_self hlt]
    · exact ih _ (List.nodup_cons.mp (by simpa using hnd)).2 p hmem
        (by rw [List.length_set]; exact hlt)

/-- Claim C4: with a duplicate-free in-range SelectionIndex matching the
pooled rows, `SimpleUnpool.forward` succeeds, the output rows at the positions
of `idx` are exactly the corresponding rows of `h`, and every other row is
exactly the zero row. -/
theorem simple_unpool_roundtrip (g h : List (List ℚ)) (idx : List ℕ)
    (hnd : idx.Nodup) (hlen : idx.length = h.length)
    (hvalid : ∀ i ∈ idx, i < g.length) :
    SimpleUnpool.forward g h idx = some (scatterRows g.length (rowWidth h) idx h) ∧
    (∀ (j i : ℕ), idx[j]? = some i →
      (scatterRows g.length (rowWidth h) idx h)[i]? = h[j]?) ∧
    (∀ i, i < g.length → i ∉ idx →
      (scatterRows g.length (rowWidth h) idx h)[i]? =
        some (List.replicate (rowWidth h) 0)) := by
  have hmapfst : (idx.zip h).map Prod.fst = idx := List.map_fst_zip idx h (le_of_eq hlen)
  refine ⟨?_, ?_, ?_⟩
  · simp only [SimpleUnpool.forward]
    rw [if_pos ⟨hlen, hvalid⟩]
  · intro j i hj
    have hjlt : j < idx.length := by
      by_contra hge
      rw [List.getElem?_eq_none (Nat.le_of_not_lt hge)] at hj
      exact Option.noConfusion hj
    have hjh : j < h.length := hlen ▸ hjlt
    have hj2 : h[j]? = some h[j] := List.getElem?_eq_getElem hjh
    have hzip : (idx.zip h)[j]? = some (i, h[j]) :=
      List.getElem?_zip_eq_some.mpr ⟨hj, hj2⟩
    have hpmem : (i, h[j]) ∈ idx.zip h := by
      rcases List.getElem?_eq_some.mp hzip with ⟨hlt2, hval⟩
      exact hval ▸ List.getElem_mem hlt2
    have hilt : i < (zerosM g.length (rowWidth h)).length := by
      rw [zerosM, List.length_replicate]
      exact hvalid i (List.of_mem_zip hpmem).1
    have hset := foldl_set_getElem_mem (idx.zip h) (zerosM g.length (rowWidth h))
      (by rw [hmapfst]; exact hnd) (i, h[j]) hpmem hilt
    rw [scatterRows, hset, hj2]
  · intro i hig hni
    rw [scatterRows, foldl_set_getElem_not_mem _ _ i (by rw [hmapfst]; exact hni)]
    simp [zerosM, List.getElem?_replicate, hig]

/-- Claim C4 witness: the round-trip instantiated on a concrete 3-row target
with selection `[2, 0]`. -/
theorem simple_unpool_roundtrip_witness :
    (([2, 0] : List ℕ).Nodup) ∧
    (([2, 0] : List ℕ).length = ([[(1 : ℚ), 2], [3, 4]] : List (List ℚ)).length) ∧
    (∀ i ∈ ([2, 0] : List ℕ), i < ([[(0 : ℚ), 0], [0, 0], [0, 0]] : List (List ℚ)).length) ∧
    (SimpleUnpool.forward [[0, 0], [0, 0], [0, 0]] [[1, 2], [3, 4]] [2, 0] =
        some (scatterRows 3 (rowWidth [[(1 : ℚ), 2], [3, 4]]) [2, 0] [[1, 2], [3, 4]]) ∧
      (∀ (j i : ℕ), ([2, 0] : List ℕ)[j]? = some i →
        (scatterRows 3 (rowWidth [[(1 : ℚ), 2], [3, 4]]) [2, 0] [[1, 2], [3, 4]])[i]? =
          ([[(1 : ℚ), 2], [3, 4]] : List (List ℚ))[j]?) ∧
      (∀ i, i < 3 → i ∉ ([2, 0] : List ℕ) →
        (scatterRows 3 (rowWidth [[(1 : ℚ), 2], [3, 4]]) [2, 0] [[1, 2], [3, 4]])[i]? =
          some (List.replicate (rowWidth [[(1 : ℚ), 2], [3, 4]]) 0))) :=
  ⟨by decide, by decide, by decide,
    simple_unpool_roundtrip [[0, 0], [0, 0], [0, 0]] [[1, 2], [3, 4]] [2, 0]
      (by decide) (by decide) (by decide)⟩

/-! ## Claim C6 -/

/-- Claim C6 as stated is false: a row whose pre-normalization sum is nonzero
but tiny does not sum to 1 within the epsilon guard.  For the 1×1 nonnegative
matrix with entry `10⁻⁹`, the normalized row sums to `1/11`. -/
theorem norm_g_within_eps_counterexample :
    (∀ i, i < 1 → ∀ j, j < 1 → (0 : ℚ) ≤ (fun _ _ => (1 : ℚ) / 10 ^ 9) i j) ∧
    rowSum 1 (fun _ _ => (1 : ℚ) / 10 ^ 9) 0 ≠ 0 ∧
    ¬ |rowSum 1 (norm_g 1 (fun _ _ => (1 : ℚ) / 10 ^ 9)) 0 - 1| ≤ eps := by
  refine ⟨?_, ?_, ?_⟩
  · intro i _ j _
    norm_num
  · norm_num [rowSum, Finset.sum_range_one]
  · norm_num [rowSum, norm_g, eps, Finset.sum_range_one, abs_le]

/-- Claim C6 (amended): for an entrywise-nonnegative `n × n` matrix, `norm_g`
divides by a strictly positive denominator (the rational analogue of
producing no NaN/Inf), an all-zero row remains all-zero, and a row sums to 1
within epsilon provided its pre-normalization sum is at least 1 (as holds for
the boolean reachability matrices `norm_g` is applied to); a merely nonzero
sum is not enough. -/
theorem norm_g_row_properties (n : ℕ) (M : QMat)
    (hnn : ∀ i, i < n → ∀ j, j < n → 0 ≤ M i j) :
    (∀ i, i < n → 0 < rowSum n M i + eps) ∧
    (∀ i j, (∀ t, t < n → M i t = 0) → j < n → norm_g n M i j = 0) ∧
    (∀ i, i < n → 1 ≤ rowSum n M i → |rowSum n (norm_g n M) i - 1| ≤ eps) := by
  have heps : (0 : ℚ) < eps := by norm_num [eps]
  refine ⟨?_, ?_, ?_⟩
  · intro i hi
    have hs : 0 ≤ rowSum n M i :=
      Finset.sum_nonneg (fun t ht => hnn i hi t (Finset.mem_range.mp ht))
    linarith
  · intro i j hrow hj
    simp [norm_g, hrow j hj]
  · intro i hi hsum
    have hs0 : (0 : ℚ) < rowSum n M i + eps := by linarith
    have hrs : rowSum n (norm_g n M) i = rowSum n M i / (rowSum n M i + eps) := by
      simp only [rowSum, norm_g]
      rw [← Finset.sum_div]
    rw [hrs]
    have key : rowSum n M i / (rowSum n M i + eps) - 1 = -(eps / (rowSum n M i + eps)) := by
      field_simp
    rw [key, abs_neg, abs_of_pos (div_pos heps hs0), div_le_iff₀ hs0]
    have h1 : (1 : ℚ) ≤ rowSum n M i + eps := by linarith
    nlinarith

/-- Claim C6 witness: the amended properties instantiated on the 2×2 all-ones
matrix. -/
theorem norm_g_row_properties_witness :
    (∀ i, i < 2 → ∀ j, j < 2 → (0 : ℚ) ≤ (fun _ _ => (1 : ℚ)) i j) ∧
    ((∀ i, i < 2 → 0 < rowSum 2 (fun _ _ => (1 : ℚ)) i + eps) ∧
      (∀ i j, (∀ t, t < 2 → (fun _ _ => (1 : ℚ)) i t = 0) → j < 2 →
        norm_g 2 (fun _ _ => (1 : ℚ)) i j = 0) ∧
      (∀ i, i < 2 → 1 ≤ rowSum 2 (fun _ _ => (1 : ℚ)) i →
        |rowSum 2 (norm_g 2 (fun _ _ => (1 : ℚ))) i - 1| ≤ eps)) :=
  ⟨by decide, norm_g_row_properties 2 (fun _ _ => 1) (by decide)⟩

/-! ## Claim C7 -/

lemma EF_add_comm (a b : EF) : EF.add a b = EF.add b a := by
  cases a <;> cases b <;> simp [EF.add, add_comm]

/-- Claim C7: the embedded `normalized_laplacian` is exactly symmetric for
every input matrix, by the final symmetrization `0.5 * (Ln + Ln.T)` and
commutativity of (IEEE) addition; exact symmetry implies symmetry within any
floating tolerance. -/
theorem normalized_laplacian_symmetric (n : ℕ) (A : ℕ → ℕ → EF) (i j : ℕ) :
    normalized_laplacian n A i j = normalized_laplacian n A j i := by
  simp only [normalized_laplacian]
  rw [EF_add_comm]

/-! ## Claim C8 -/

lemma EF_add_nan_left (a : EF) : EF.add .nan a = .nan := rfl

lemma EF_add_nan_right (a : EF) : EF.add a .nan = .nan := by cases a <;> rfl

lemma EF_mul_nan_left (a : EF) : EF.mul .nan a = .nan := rfl

lemma EF_mul_pinf_zero : EF.mul .pinf (.fin 0) = .nan := by simp [EF.mul]

lemma EF_mul_nan_right (a : EF) : EF.mul a .nan = .nan := by cases a <;> rfl

lemma foldl_addEF_zero (f : ℕ → EF) :
    ∀ (l : List ℕ) (q : ℚ), (∀ t ∈ l, f t = .fin 0) →
      l.foldl (fun a t => EF.add a (f t)) (.fin q) = .fin q := by
  intro l
  induction l with
  | nil => intro q _; rfl
  | cons b t ih =>
    intro q hz
    rw [List.foldl_cons, hz b (List.mem_cons_self b t)]
    have hstep : EF.add (.fin q) (.fin 0) = .fin q := by simp [EF.add]
    rw [hstep]
    exact ih q (fun x hx => hz x (List.mem_cons_of_mem b hx))

lemma sumTo_all_zero (n : ℕ) (f : ℕ → EF) (h : ∀ t, t < n → f t = .fin 0) :
    EF.sumTo n f = .fin 0 :=
  foldl_addEF_zero f (List.range n) 0 (fun t ht => h t (List.mem_range.mp ht))

lemma foldl_addEF_nan (f : ℕ → EF) :
    ∀ (l : List ℕ) (a : EF), (a = .nan ∨ ∃ t ∈ l, f t = .nan) →
      l.foldl (fun acc t => EF.add acc (f t)) a = .nan := by
  intro l
  induction l with
  | nil =>
    intro a h
    rcases h with h | ⟨t, ht, _⟩
    · exact h
    · exact absurd ht (List.not_mem_nil t)
  | cons b t ih =>
    intro a h
    rw [List.foldl_cons]
    rcases h with ha | ⟨x, hx, hfx⟩
    · exact ih _ (Or.inl (by rw [ha, EF_add_nan_left]))
    · rcases List.mem_cons.mp hx with hxb | hxt
      · exact ih _ (Or.inl (by rw [hxb] at hfx; rw [hfx, EF_add_nan_right]))
      · exact ih _ (Or.inr ⟨x, hxt, hfx⟩)

lemma sumTo_nan (n : ℕ) (f : ℕ → EF) (t : ℕ) (ht : t < n) (h : f t = .nan) :
    EF.sumTo n f = .nan :=
  foldl_addEF_nan f (List.range n) _ (Or.inr ⟨t, List.mem_range.mpr ht, h⟩)

lemma normalized_laplacian_nan_of_zero_row (n : ℕ) (A : ℕ → ℕ → EF) (i : ℕ)
    (hi : i < n) (hrow : ∀ b, b < n → A i b = .fin 0) :
    normalized_laplacian n A i i = .nan := by
  have hd : nl_d n A i = .fin 0 := sumTo_all_zero n _ hrow
  have hsqrt : EF.sqrt (.fin 0) = .fin 0 := by
    simp only [EF.sqrt]
    rw [if_neg (lt_irrefl (0 : ℚ)), show Rat.sqrt 0 = 0 from by decide]
  have hdiv : EF.div (.fin 1) (.fin 0) = .pinf := by
    norm_num [EF.div]
  have hdinv : nl_dinvSqrt n A i i = .pinf := by
    simp [nl_dinvSqrt, hd, hsqrt, hdiv]
  have hM1 : ∀ t, t < n → EF.mm n (nl_dinvSqrt n A) A i t = .nan := by
    intro t ht
    apply sumTo_nan n _ i hi
    rw [hdinv, hrow t ht]
    exact EF_mul_pinf_zero
  have hM2 : EF.mm n (EF.mm n (nl_dinvSqrt n A) A) (nl_dinvSqrt n A) i i = .nan := by
    apply sumTo_nan n _ i hi
    rw [hM1 i hi]
    exact EF_mul_nan_left _
  have hLn : nl_Ln n A i i = .nan := by
    simp only [nl_Ln, if_pos rfl, hM2]
    simp [EF.sub, EF.neg, EF_add_nan_right]
  simp only [normalized_laplacian, hLn]
  rw [EF_add_nan_left, EF_mul_nan_right]

/-- Claim C8 as stated is false: a single isolated node (N = 1, no edges, so
the adjacency is the 1×1 zero matrix) makes `normalized_laplacian` return
normally with a NaN entry — silent NaN/Inf propagation (`1 / sqrt(0) = inf`,
then `inf * 0 = NaN`), not a raised `SingularDegree` error; no such error
exists anywhere in the code. -/
theorem normalized_laplacian_singular_counterexample :
    normalized_laplacian 1 (fun _ _ => .fin 0) 0 0 = .nan :=
  normalized_laplacian_nan_of_zero_row 1 (fun _ _ => .fin 0) 0 (by decide)
    (fun _ _ => rfl)

/-- Claim C8 (amended): whenever node `i` has degree 0 (its adjacency row is
all zero), `normalized_laplacian` raises no error and its result carries a NaN
diagonal entry at `i` — the non-finite values propagate silently out of this
function. -/
theorem normalized_laplacian_zero_degree_nan (n : ℕ) (A : ℕ → ℕ → EF) (i : ℕ)
    (hi : i < n) (hrow : ∀ b, b < n → A i b = .fin 0) :
    normalized_laplacian n A i i = .nan :=
  normalized_laplacian_nan_of_zero_row n A i hi hrow

/-- Claim C8 witness: the amended claim instantiated on a 2-node graph whose
node 0 is isolated. -/
theorem normalized_laplacian_zero_degree_nan_witness :
    (0 < 2) ∧
    (∀ b, b < 2 → (fun i _ => if i = 0 then EF.fin 0 else EF.fin 1) 0 b = EF.fin 0) ∧
    normalized_laplacian 2 (fun i _ => if i = 0 then EF.fin 0 else EF.fin 1) 0 0 =
      EF.nan :=
  ⟨by decide, by decide,
    normalized_laplacian_zero_degree_nan 2 (fun i _ => if i = 0 then EF.fin 0 else EF.fin 1)
      0 (by decide) (by decide)⟩

/-! ## Claim C9 -/

lemma perm_eq_of_length_le_one {α : Type} (l1 l2 : List α) (hp : l1.Perm l2)
    (hl : l1.length ≤ 1) : l1 = l2 := by
  cases l1 with
  | nil =>
    have h2 : l2 = [] := List.length_eq_zero.mp (hp.length_eq.symm)
    rw [h2]
  | cons a t =>
    have ht : t = [] := by
      have : t.length = 0 := by
        simp only [List.length_cons] at hl
        omega
      exact List.length_eq_zero.mp this
    subst ht
    exact (List.perm_singleton.mp hp.symm).symm

lemma filter_key_length_le_one (l : List (ℕ × List ℚ))
    (hnd : (l.map Prod.fst).Nodup) (j : ℕ) :
    (l.filter (fun p => p.1 == j)).length ≤ 1 := by
  rcases hf : l.filter (fun p => p.1 == j) with _ | ⟨x, _ | ⟨y, ys⟩⟩
  · simp [hf]
  · simp [hf]
  · exfalso
    have hnd2 : ((l.filter (fun p => p.1 == j)).map Prod.fst).Nodup :=
      ((List.filter_sublist l).map Prod.fst).nodup hnd
    rw [hf] at hnd2
    have hx : x ∈ l.filter (fun p => p.1 == j) := by
      rw [hf]; exact List.mem_cons_self _ _
    have hy : y ∈ l.filter (fun p => p.1 == j) := by
      rw [hf]; exact List.mem_cons_of_mem _ (List.mem_cons_self _ _)
    have hxj : x.1 = j := by simpa using (List.mem_filter.mp hx).2
    have hyj : y.1 = j := by simpa using (List.mem_filter.mp hy).2
    simp only [List.map_cons, List.nodup_cons] at hnd2
    exact hnd2.1 (by rw [hxj, ← hyj]; exact List.mem_cons_self _ _)

lemma lookupLast_perm_eq (j : ℕ) (l1 l2 : List (ℕ × List ℚ)) (hp : l1.Perm l2)
    (hnd : (l1.map Prod.fst).Nodup) : lookupLast j l1 = lookupLast j l2 := by
  have heq : l1.filter (fun p => p.1 == j) = l2.filter (fun p => p.1 == j) :=
    perm_eq_of_length_le_one _ _ (hp.filter _) (filter_key_length_le_one l1 hnd j)
  simp only [lookupLast, heq]

/-- Claim C9 fails for `models.py`'s `all_centralities`, which stacks the
worker results in queue-arrival order rather than keying them: two arrival
orders of the same four worker results produce different feature matrices. -/
theorem all_centralities_models_order_dependent :
    List.Perm [[(0 : ℚ)], [1], [2], [3]] [[1], [0], [2], [3]] ∧
    all_centralities_models [[(0 : ℚ)], [1], [2], [3]] ≠
      all_centralities_models [[1], [0], [2], [3]] :=
  ⟨by decide, by decide⟩

/-- Claim C9 (amended): `methods.py`'s `all_centralities` is
schedule-independent — its result columns are keyed by worker index to the
fixed metric ordering, so any two queue-arrival orders of the same worker
results (one result per method) assemble to the same StructuralFeatureMatrix.
`models.py`'s variant stacks in arrival order and is order-dependent. -/
theorem all_centralities_methods_schedule_independent (k : ℕ)
    (a1 a2 : List (ℕ × List ℚ)) (hp : a1.Perm a2)
    (hnd : (a1.map Prod.fst).Nodup) :
    all_centralities_methods k a1 = all_centralities_methods k a2 := by
  simp only [all_centralities_methods]
  have hfun : (fun j => lookupLast j a1) = (fun j => lookupLast j a2) :=
    funext (fun j => lookupLast_perm_eq j a1 a2 hp hnd)
  rw [hfun]

/-- Claim C9 witness: the keyed assembly gives the same matrix for two
different arrival orders of two concrete worker results. -/
theorem all_centralities_methods_schedule_independent_witness :
    (List.Perm [(0, [(10 : ℚ)]), (1, [20])] [(1, [(20 : ℚ)]), (0, [10])]) ∧
    (([(0, [(10 : ℚ)]), (1, [20])].map Prod.fst).Nodup) ∧
    all_centralities_methods 2 [(0, [(10 : ℚ)]), (1, [20])] =
      all_centralities_methods 2 [(1, [(20 : ℚ)]), (0, [10])] :=
  ⟨by decide, by decide,
    all_centralities_methods_schedule_independent 2 _ _ (by decide) (by decide)⟩
